import Mathlib

/-!
Verification of the shorelark evolution simulator against its specification.

The Rust sources are shallowly embedded: `f32` scalars are idealised as real
numbers (so arithmetic is exact and the trigonometric constants such as
`FRAC_PI_2` are the exact mathematical values), `Vec<T>` becomes `List T`,
panics become `Option.none`, and the caller-supplied `RngCore` capability
becomes an explicit stream of values threaded through every function that
draws randomness.

Embedded files:
* `src/libs/neural-network/src/lib.rs` — `Network`, `Layer`, `Neuron` and
  their `propagate` / `weights` / `from_weights` operations;
* `src/libs/simulation/src/lib.rs` — the simulation constants, the four-phase
  `step`, and `evolve`;
* `src/libs/simulation/src/brain.rs` — `Brain::topology`.

Parts of the repository that the claims touch but whose sources are not
available (`eye.rs`, `animal.rs`, `food.rs`, `world.rs`,
`animal_individual.rs` and the `lib-genetic-algorithm` crate) are modelled
from the specification; each such definition carries a doc comment starting
with `Modelled from the spec:`.
-/

noncomputable section

namespace Shorelark

/-! ## Neural network (src/libs/neural-network/src/lib.rs) -/

/-- A neuron: one bias scalar and one weight per input. -/
structure Neuron where
  bias : ℝ
  weights : List ℝ

/-- A layer: one neuron per output dimension. -/
structure Layer where
  neurons : List Neuron

/-- A network: an ordered sequence of layers. -/
structure Network where
  layers : List Layer

/-- Neuron::propagate — `(self.bias + Σ input_i * weight_i).max(0.0)`. -/
def Neuron.propagate (n : Neuron) (inputs : List ℝ) : ℝ :=
  max (n.bias + (List.zipWith (fun i w => i * w) inputs n.weights).sum) 0

/-- Layer::propagate — each neuron fires on the same input vector. -/
def Layer.propagate (l : Layer) (inputs : List ℝ) : List ℝ :=
  l.neurons.map (fun n => n.propagate inputs)

/-- Network::propagate — fold the input through the layers in order. -/
def Network.propagate (net : Network) (inputs : List ℝ) : List ℝ :=
  net.layers.foldl (fun acc l => l.propagate acc) inputs

/-- The flat parameter block of one neuron: bias first, then the weights
(`once(&neuron.bias).chain(&neuron.weights)`). -/
def Neuron.genome (n : Neuron) : List ℝ :=
  n.bias :: n.weights

/-- The flat parameter block of one layer, neurons in declaration order. -/
def Layer.genome (l : Layer) : List ℝ :=
  l.neurons.foldr (fun n acc => n.genome ++ acc) []

/-- Network::weights — flatten all parameters, layer order then neuron order,
bias before weights. -/
def Network.weights (net : Network) : List ℝ :=
  net.layers.foldr (fun l acc => l.genome ++ acc) []

/-- Take exactly `n` scalars off the front of `ws`, returning them and the
remainder; `none` when `ws` is too short.  This is the iterator-consumption
pattern of `Neuron::from_weights` made explicit. -/
def takeExact : ℕ → List ℝ → Option (List ℝ × List ℝ)
  | 0, ws => some ([], ws)
  | _ + 1, [] => none
  | n + 1, w :: ws => (takeExact n ws).map (fun p => (w :: p.1, p.2))

/-- Neuron::from_weights — pull one bias then `inputSize` weights off the
iterator; the source panics ("got not enough weights") on exhaustion, which
the embedding renders as `none`. -/
def Neuron.fromWeights (inputSize : ℕ) : List ℝ → Option (Neuron × List ℝ)
  | [] => none
  | b :: rest => (takeExact inputSize rest).map (fun p => (⟨b, p.1⟩, p.2))

/-- Layer::from_weights, inner loop — build `0..output_size` neurons, each
consuming from the shared iterator. -/
def Layer.fromWeightsAux (inputSize : ℕ) : ℕ → List ℝ → Option (List Neuron × List ℝ)
  | 0, ws => some ([], ws)
  | k + 1, ws =>
    (Neuron.fromWeights inputSize ws).bind (fun p =>
      (Layer.fromWeightsAux inputSize k p.2).map (fun q => (p.1 :: q.1, q.2)))

/-- Layer::from_weights. -/
def Layer.fromWeights (inputSize outputSize : ℕ) (ws : List ℝ) :
    Option (Layer × List ℝ) :=
  (Layer.fromWeightsAux inputSize outputSize ws).map (fun p => (⟨p.1⟩, p.2))

/-- Network::from_weights, layer loop over `layers.windows(2)`. -/
def Network.fromWeightsGo : List (ℕ × ℕ) → List ℝ → Option (List Layer × List ℝ)
  | [], ws => some ([], ws)
  | p :: ps, ws =>
    (Layer.fromWeights p.1 p.2 ws).bind (fun q =>
      (Network.fromWeightsGo ps q.2).map (fun r => (q.1 :: r.1, r.2)))

/-- Network::from_weights — asserts at least two topology entries, builds a
layer per consecutive topology pair, and panics ("got too many weights") when
scalars remain; both panics are rendered as `none`. -/
def Network.fromWeights (topology : List ℕ) (ws : List ℝ) : Option Network :=
  if topology.length < 2 then none
  else
    match Network.fromWeightsGo (topology.zip topology.tail) ws with
    | some (layers, []) => some ⟨layers⟩
    | _ => none

/-- Shape invariant of a layer: `outputSize` neurons, each with `inputSize`
weights (the invariant `Layer::random`/`Layer::from_weights` establish). -/
def Layer.matchesShape (l : Layer) (inputSize outputSize : ℕ) : Prop :=
  l.neurons.length = outputSize ∧ ∀ n ∈ l.neurons, n.weights.length = inputSize

/-- Shape invariant of a network against a topology: one layer per
consecutive pair of topology entries, each of the right shape. -/
def Network.matchesShape (net : Network) (topology : List ℕ) : Prop :=
  List.Forall₂ (fun l (p : ℕ × ℕ) => Layer.matchesShape l p.1 p.2)
    net.layers (topology.zip topology.tail)

/-- The genome length dictated by a topology: `Σ_i (topology[i]+1)*topology[i+1]`. -/
def genomeLength (topology : List ℕ) : ℕ :=
  ((topology.zip topology.tail).map (fun p => (p.1 + 1) * p.2)).sum

/-! ## Round-trip lemmas (claim C1) -/

theorem takeExact_append (ws rest : List ℝ) :
    takeExact ws.length (ws ++ rest) = some (ws, rest) := by
  induction ws with
  | nil => rfl
  | cons w ws ih => simp [takeExact, ih]

theorem Neuron.fromWeights_genome_eq (n : Neuron) (rest : List ℝ) (inputSize : ℕ)
    (h : n.weights.length = inputSize) :
    Neuron.fromWeights inputSize (n.genome ++ rest) = some (n, rest) := by
  subst h
  simp [Neuron.genome, Neuron.fromWeights, takeExact_append]

theorem Layer.fromWeightsAux_genome (inputSize : ℕ) (ns : List Neuron) (rest : List ℝ)
    (h : ∀ n ∈ ns, n.weights.length = inputSize) :
    Layer.fromWeightsAux inputSize ns.length
      ((ns.foldr (fun n acc => n.genome ++ acc) []) ++ rest) = some (ns, rest) := by
  induction ns with
  | nil => rfl
  | cons n ns ih =>
    have hn : n.weights.length = inputSize := h n (by simp)
    have hns : ∀ m ∈ ns, m.weights.length = inputSize := fun m hm => h m (by simp [hm])
    simp [List.append_assoc, Layer.fromWeightsAux,
      Neuron.fromWeights_genome_eq n _ _ hn, ih hns]

theorem Layer.fromWeights_genome (l : Layer) (rest : List ℝ) (inputSize outputSize : ℕ)
    (h : l.matchesShape inputSize outputSize) :
    Layer.fromWeights inputSize outputSize (l.genome ++ rest) = some (l, rest) := by
  obtain ⟨hlen, hws⟩ := h
  subst hlen
  simp [Layer.fromWeights, Layer.genome, Layer.fromWeightsAux_genome _ _ _ hws]

theorem Network.fromWeightsGo_genome (layers : List Layer) (pairs : List (ℕ × ℕ))
    (rest : List ℝ)
    (h : List.Forall₂ (fun l (p : ℕ × ℕ) => Layer.matchesShape l p.1 p.2) layers pairs) :
    Network.fromWeightsGo pairs
      ((layers.foldr (fun l acc => l.genome ++ acc) []) ++ rest) = some (layers, rest) := by
  induction h with
  | nil => rfl
  | cons hl _ ih =>
    simp [List.append_assoc, Network.fromWeightsGo,
      Layer.fromWeights_genome _ _ _ _ hl, ih]

/-- C1: for every network matching a topology of at least two entries,
`from_weights(topology, weights(network))` succeeds and reconstructs a network
whose flattened `weights()` output equals the original flat sequence. -/
theorem C1_weights_roundTrip (topology : List ℕ) (net : Network)
    (h2 : 2 ≤ topology.length) (hm : net.matchesShape topology) :
    ∃ net2 : Network, Network.fromWeights topology net.weights = some net2 ∧
      net2.weights = net.weights := by
  refine ⟨net, ?_, rfl⟩
  have hgo := Network.fromWeightsGo_genome net.layers (topology.zip topology.tail) [] hm
  rw [List.append_nil] at hgo
  simp only [Network.fromWeights, if_neg (by omega : ¬ topology.length < 2)]
  rw [show (net.layers.foldr (fun l acc => l.genome ++ acc) []) = net.weights from rfl] at hgo
  rw [hgo]

/-- Witness for C1 at a concrete two-entry topology and one-neuron network. -/
theorem C1_weights_roundTrip_witness :
    2 ≤ ([1, 1] : List ℕ).length ∧
    Network.matchesShape ⟨[⟨[⟨(3 : ℝ), [(5 : ℝ)]⟩]⟩]⟩ [1, 1] ∧
    ∃ net2 : Network,
      Network.fromWeights [1, 1] (Network.weights ⟨[⟨[⟨(3 : ℝ), [(5 : ℝ)]⟩]⟩]⟩) = some net2 ∧
      net2.weights = Network.weights ⟨[⟨[⟨(3 : ℝ), [(5 : ℝ)]⟩]⟩]⟩ := by
  refine ⟨by simp, ?_, ?_⟩
  · simp [Network.matchesShape, Layer.matchesShape]
  · exact C1_weights_roundTrip [1, 1] ⟨[⟨[⟨(3 : ℝ), [(5 : ℝ)]⟩]⟩]⟩ (by simp)
      (by simp [Network.matchesShape, Layer.matchesShape])

/-! ## Exact-length lemmas (claim C4) -/

theorem takeExact_of_le (n : ℕ) (ws : List ℝ) (h : n ≤ ws.length) :
    takeExact n ws = some (ws.take n, ws.drop n) := by
  induction n generalizing ws with
  | zero => simp [takeExact]
  | succ n ih =>
    cases ws with
    | nil => simp at h
    | cons w ws => simp [takeExact, ih ws (by simpa using h)]

theorem takeExact_of_lt (n : ℕ) (ws : List ℝ) (h : ws.length < n) :
    takeExact n ws = none := by
  induction n generalizing ws with
  | zero => omega
  | succ n ih =>
    cases ws with
    | nil => rfl
    | cons w ws => simp [takeExact, ih ws (by simpa using h)]

theorem Neuron.fromWeights_of_le (inputSize : ℕ) (ws : List ℝ)
    (h : inputSize + 1 ≤ ws.length) :
    ∃ n : Neuron, Neuron.fromWeights inputSize ws = some (n, ws.drop (inputSize + 1)) := by
  cases ws with
  | nil => simp at h
  | cons b rest =>
    refine ⟨⟨b, rest.take inputSize⟩, ?_⟩
    simp [Neuron.fromWeights, takeExact_of_le inputSize rest (by simpa using h)]

theorem Neuron.fromWeights_of_lt (inputSize : ℕ) (ws : List ℝ)
    (h : ws.length < inputSize + 1) :
    Neuron.fromWeights inputSize ws = none := by
  cases ws with
  | nil => rfl
  | cons b rest =>
    simp [Neuron.fromWeights, takeExact_of_lt inputSize rest (by simpa using h)]

theorem Layer.fromWeightsAux_of_le (inputSize k : ℕ) (ws : List ℝ)
    (h : (inputSize + 1) * k ≤ ws.length) :
    ∃ ns : List Neuron,
      Layer.fromWeightsAux inputSize k ws = some (ns, ws.drop ((inputSize + 1) * k)) := by
  induction k generalizing ws with
  | zero => exact ⟨[], by simp [Layer.fromWeightsAux]⟩
  | succ k ih =>
    have hmul : (inputSize + 1) * (k + 1) = (inputSize + 1) * k + (inputSize + 1) := by
      ring
    have h1 : inputSize + 1 ≤ ws.length := by omega
    obtain ⟨n, hn⟩ := Neuron.fromWeights_of_le inputSize ws h1
    have h2 : (inputSize + 1) * k ≤ (ws.drop (inputSize + 1)).length := by
      simp only [List.length_drop]
      omega
    obtain ⟨ns, hns⟩ := ih (ws.drop (inputSize + 1)) h2
    refine ⟨n :: ns, ?_⟩
    simp only [Layer.fromWeightsAux, hn, Option.some_bind, hns, Option.map_some',
      List.drop_drop]
    have : inputSize + 1 + (inputSize + 1) * k = (inputSize + 1) * (k + 1) := by ring
    rw [this]

theorem Layer.fromWeightsAux_of_lt (inputSize k : ℕ) (ws : List ℝ)
    (h : ws.length < (inputSize + 1) * k) :
    Layer.fromWeightsAux inputSize k ws = none := by
  induction k generalizing ws with
  | zero => simp at h
  | succ k ih =>
    have hmul : (inputSize + 1) * (k + 1) = (inputSize + 1) * k + (inputSize + 1) := by
      ring
    by_cases h1 : inputSize + 1 ≤ ws.length
    · obtain ⟨n, hn⟩ := Neuron.fromWeights_of_le inputSize ws h1
      have h2 : (ws.drop (inputSize + 1)).length < (inputSize + 1) * k := by
        simp only [List.length_drop]
        omega
      simp [Layer.fromWeightsAux, hn, ih _ h2]
    · simp [Layer.fromWeightsAux, Neuron.fromWeights_of_lt inputSize ws (by omega)]

/-- Scalars needed by a list of `(input, output)` layer pairs. -/
def pairsNeed (ps : List (ℕ × ℕ)) : ℕ :=
  (ps.map (fun p => (p.1 + 1) * p.2)).sum

theorem Network.fromWeightsGo_of_le (ps : List (ℕ × ℕ)) (ws : List ℝ)
    (h : pairsNeed ps ≤ ws.length) :
    ∃ ls : List Layer,
      Network.fromWeightsGo ps ws = some (ls, ws.drop (pairsNeed ps)) := by
  induction ps generalizing ws with
  | nil => exact ⟨[], by simp [Network.fromWeightsGo, pairsNeed]⟩
  | cons p ps ih =>
    have hp : pairsNeed (p :: ps) = (p.1 + 1) * p.2 + pairsNeed ps := by
      simp [pairsNeed]
    have h1 : (p.1 + 1) * p.2 ≤ ws.length := by omega
    obtain ⟨ns, hns⟩ := Layer.fromWeightsAux_of_le p.1 p.2 ws h1
    have h2 : pairsNeed ps ≤ (ws.drop ((p.1 + 1) * p.2)).length := by
      simp only [List.length_drop]
      omega
    obtain ⟨ls, hls⟩ := ih _ h2
    refine ⟨⟨ns⟩ :: ls, ?_⟩
    simp only [Network.fromWeightsGo, Layer.fromWeights, hns, Option.map_some',
      Option.some_bind, hls, List.drop_drop, hp]

theorem Network.fromWeightsGo_of_lt (ps : List (ℕ × ℕ)) (ws : List ℝ)
    (h : ws.length < pairsNeed ps) :
    Network.fromWeightsGo ps ws = none := by
  induction ps generalizing ws with
  | nil => simp [pairsNeed] at h
  | cons p ps ih =>
    have hp : pairsNeed (p :: ps) = (p.1 + 1) * p.2 + pairsNeed ps := by
      simp [pairsNeed]
    by_cases h1 : (p.1 + 1) * p.2 ≤ ws.length
    · obtain ⟨ns, hns⟩ := Layer.fromWeightsAux_of_le p.1 p.2 ws h1
      have h2 : (ws.drop ((p.1 + 1) * p.2)).length < pairsNeed ps := by
        simp only [List.length_drop]
        omega
      simp [Network.fromWeightsGo, Layer.fromWeights, hns, ih _ h2]
    · simp [Network.fromWeightsGo, Layer.fromWeights,
        Layer.fromWeightsAux_of_lt p.1 p.2 ws (by omega)]

theorem genomeLength_eq_pairsNeed (topology : List ℕ) :
    genomeLength topology = pairsNeed (topology.zip topology.tail) := rfl

/-- C4: for a topology of at least two entries, `from_weights` succeeds on a
scalar sequence of exactly `Σ_i (topology[i]+1)*topology[i+1]` scalars and
fails (reconstruction error, not truncation or padding) on strictly fewer or
strictly more. -/
theorem C4_fromWeights_exactLength (topology : List ℕ) (ws : List ℝ)
    (h2 : 2 ≤ topology.length) :
    (ws.length = genomeLength topology →
      ∃ net : Network, Network.fromWeights topology ws = some net) ∧
    (ws.length ≠ genomeLength topology → Network.fromWeights topology ws = none) := by
  constructor
  · intro heq
    have heq2 : ws.length = pairsNeed (topology.zip topology.tail) := by
      rw [← genomeLength_eq_pairsNeed]
      exact heq
    obtain ⟨ls, hls⟩ := Network.fromWeightsGo_of_le (topology.zip topology.tail) ws
      (le_of_eq heq2.symm)
    have hnil : ws.drop (pairsNeed (topology.zip topology.tail)) = [] := by
      simp [List.drop_eq_nil_iff, heq2]
    rw [hnil] at hls
    refine ⟨⟨ls⟩, ?_⟩
    simp only [Network.fromWeights, if_neg (by omega : ¬ topology.length < 2), hls]
  · intro hne
    rcases Nat.lt_or_ge ws.length (genomeLength topology) with hlt | hge
    · have := Network.fromWeightsGo_of_lt (topology.zip topology.tail) ws
        (by rwa [← genomeLength_eq_pairsNeed])
      simp [Network.fromWeights, if_neg (by omega : ¬ topology.length < 2), this]
    · have hgt : genomeLength topology < ws.length := by omega
      obtain ⟨ls, hls⟩ := Network.fromWeightsGo_of_le (topology.zip topology.tail) ws
        (by rw [← genomeLength_eq_pairsNeed]; omega)
      have hrest : ws.drop (pairsNeed (topology.zip topology.tail)) ≠ [] := by
        rw [← genomeLength_eq_pairsNeed]
        simp only [ne_eq, List.drop_eq_nil_iff, not_le]
        omega
      simp only [Network.fromWeights, if_neg (by omega : ¬ topology.length < 2), hls]
      cases hdrop : ws.drop (pairsNeed (topology.zip topology.tail)) with
      | nil => exact absurd hdrop hrest
      | cons r rs => rfl

/-- Witness for C4: the topology `[1, 1]` needs exactly two scalars; two
scalars succeed and one scalar fails. -/
theorem C4_fromWeights_exactLength_witness :
    2 ≤ ([1, 1] : List ℕ).length ∧
    (∃ net : Network, Network.fromWeights [1, 1] [(3 : ℝ), (5 : ℝ)] = some net) ∧
    Network.fromWeights [1, 1] [(3 : ℝ)] = none := by
  refine ⟨by simp, ?_, ?_⟩
  · exact (C4_fromWeights_exactLength [1, 1] [(3 : ℝ), (5 : ℝ)] (by simp)).1 (by decide)
  · exact (C4_fromWeights_exactLength [1, 1] [(3 : ℝ)] (by simp)).2 (by decide)

/-! ## Forward-pass lemmas (claims C3, C9, C10) -/

theorem Layer.propagate_length (l : Layer) (inputs : List ℝ) :
    (l.propagate inputs).length = l.neurons.length := by
  simp [Layer.propagate]

theorem Network.propagate_cons (l : Layer) (ls : List Layer) (inputs : List ℝ) :
    Network.propagate ⟨l :: ls⟩ inputs = Network.propagate ⟨ls⟩ (l.propagate inputs) := rfl

/-- Propagation through a shape-correct network turns a vector of the first
topology entry's length into one of the last topology entry's length. -/
theorem Network.propagate_length_aux (topology : List ℕ) (t0 : ℕ) (layers : List Layer)
    (inputs : List ℝ)
    (h : List.Forall₂ (fun l (p : ℕ × ℕ) => Layer.matchesShape l p.1 p.2)
      layers ((t0 :: topology).zip topology))
    (hin : inputs.length = t0) :
    (Network.propagate ⟨layers⟩ inputs).length = (t0 :: topology).getLastD 0 := by
  induction topology generalizing t0 layers inputs with
  | nil =>
    cases h
    simpa [Network.propagate] using hin
  | cons t1 rest ih =>
    rw [List.zip_cons_cons] at h
    cases h with
    | cons hl htail =>
      rename_i l ls
      have hrec := ih t1 ls (l.propagate inputs) htail
        (by simp [Layer.propagate_length, hl.1])
      rw [List.getLastD_cons] at hrec
      rw [Network.propagate_cons, List.getLastD_cons, List.getLastD_cons]
      exact hrec

/-- Every element coming out of a network with at least one layer is a ReLU
output and hence nonnegative. -/
theorem Network.propagate_nonneg (layers : List Layer) (inputs : List ℝ)
    (hne : layers ≠ []) :
    ∀ x ∈ Network.propagate ⟨layers⟩ inputs, 0 ≤ x := by
  induction layers generalizing inputs with
  | nil => exact absurd rfl hne
  | cons l ls ih =>
    cases ls with
    | nil =>
      intro x hx
      simp only [Network.propagate, List.foldl_cons, List.foldl_nil] at hx
      simp only [Layer.propagate, List.mem_map] at hx
      obtain ⟨n, _, hn⟩ := hx
      rw [← hn]
      exact le_max_right _ 0
    | cons l2 ls2 =>
      intro x hx
      rw [Network.propagate_cons] at hx
      exact ih _ (List.cons_ne_nil _ _) x hx

theorem Network.layers_ne_nil_of_matchesShape (net : Network) (topology : List ℕ)
    (h2 : 2 ≤ topology.length) (hm : net.matchesShape topology) : net.layers ≠ [] := by
  have hlen := hm.length_eq
  have : (topology.zip topology.tail).length = min topology.length topology.tail.length := by
    simp
  intro hnil
  rw [hnil] at hlen
  simp only [List.length_nil] at hlen
  rw [this] at hlen
  have := List.length_tail topology
  omega

/-- C3: for every shape-correct network over a topology with at least two
entries and every input vector whose length is the first topology entry,
`propagate` returns a vector whose length is the last topology entry and
whose elements are all nonnegative (ReLU floor). -/
theorem C3_propagate_shape (topology : List ℕ) (net : Network) (inputs : List ℝ)
    (h2 : 2 ≤ topology.length) (hm : net.matchesShape topology)
    (hin : inputs.length = topology.headD 0) :
    (net.propagate inputs).length = topology.getLastD 0 ∧
    ∀ x ∈ net.propagate inputs, 0 ≤ x := by
  obtain ⟨layers⟩ := net
  cases topology with
  | nil => simp at h2
  | cons t0 rest =>
    constructor
    · exact Network.propagate_length_aux rest t0 layers inputs
        (by simpa [Network.matchesShape] using hm) (by simpa using hin)
    · exact Network.propagate_nonneg layers inputs
        (Network.layers_ne_nil_of_matchesShape ⟨layers⟩ _ h2 hm)

/-- Witness for C3: a two-layer network over the topology `[2, 2, 1]`. -/
theorem C3_propagate_shape_witness :
    2 ≤ ([2, 2, 1] : List ℕ).length ∧
    Network.matchesShape
      ⟨[⟨[⟨(1 : ℝ), [1, 1]⟩, ⟨(0 : ℝ), [1, -1]⟩]⟩, ⟨[⟨(-1 : ℝ), [2, 3]⟩]⟩]⟩ [2, 2, 1] ∧
    ([(4 : ℝ), (7 : ℝ)].length = ([2, 2, 1] : List ℕ).headD 0) ∧
    ((Network.propagate
        ⟨[⟨[⟨(1 : ℝ), [1, 1]⟩, ⟨(0 : ℝ), [1, -1]⟩]⟩, ⟨[⟨(-1 : ℝ), [2, 3]⟩]⟩]⟩
        [(4 : ℝ), (7 : ℝ)]).length = ([2, 2, 1] : List ℕ).getLastD 0 ∧
      ∀ x ∈ Network.propagate
        ⟨[⟨[⟨(1 : ℝ), [1, 1]⟩, ⟨(0 : ℝ), [1, -1]⟩]⟩, ⟨[⟨(-1 : ℝ), [2, 3]⟩]⟩]⟩
        [(4 : ℝ), (7 : ℝ)], 0 ≤ x) := by
  refine ⟨by simp, ?_, by simp, ?_⟩
  · simp [Network.matchesShape, Layer.matchesShape]
  · exact C3_propagate_shape [2, 2, 1] _ _ (by simp)
      (by simp [Network.matchesShape, Layer.matchesShape]) (by simp)

/-! ## Simulation state (src/libs/simulation/src/lib.rs, brain.rs) -/

/-- GENERATION_LENGTH — steps before a generation boundary. -/
def GENERATION_LENGTH : ℕ := 2500

/-- SPEED_MIN — minimum speed of a bird. -/
def SPEED_MIN : ℝ := 0.001

/-- SPEED_MAX — maximum speed of a bird. -/
def SPEED_MAX : ℝ := 0.005

/-- SPEED_ACCEL — per-step bound on the brain's speed change. -/
def SPEED_ACCEL : ℝ := 0.2

/-- ROTATION_ACCEL — per-step bound on the brain's rotation change
(`FRAC_PI_2`). -/
def ROTATION_ACCEL : ℝ := Real.pi / 2

/-- f32::clamp — `min(max(x, lo), hi)`. -/
def clampF (x lo hi : ℝ) : ℝ := min (max x lo) hi

/-- The caller-supplied randomness capability: an explicit stream of scalar
values together with a cursor, so that every draw is reproducible. -/
structure Rng where
  stream : ℕ → ℝ
  idx : ℕ

/-- Draw one scalar from the capability, advancing the cursor. -/
def Rng.draw (r : Rng) : ℝ × Rng := (r.stream r.idx, ⟨r.stream, r.idx + 1⟩)

/-- Draw one 2-D point (`rng.random()` on a `Point2`), i.e. two scalars. -/
def Rng.drawPair (r : Rng) : (ℝ × ℝ) × Rng :=
  ((r.draw.1, r.draw.2.draw.1), r.draw.2.draw.2)

/-- Modelled from the spec: the Eye configuration (file `eye.rs` is not among
the provided sources) — detection range, field-of-view angle, and number of
vision cells (§3 of the spec). -/
structure Eye where
  fovRange : ℝ
  fovAngle : ℝ
  cells : ℕ

/-- Modelled from the spec: a food item is just a position on the unit torus
(file `food.rs` is not among the provided sources). -/
structure Food where
  position : ℝ × ℝ

/-- Brain — a wrapper around a neural network (brain.rs). -/
structure Brain where
  nn : Network

/-- Brain::topology — input layer sized by the eye's cell count, one hidden
layer of twice that size, and a two-neuron output layer (brain.rs). -/
def Brain.topology (eye : Eye) : List ℕ :=
  [eye.cells, 2 * eye.cells, 2]

/-- Modelled from the spec: an animal's state — position, heading, speed,
eye, brain and satiation counter (file `animal.rs` is not among the provided
sources; the fields are those the spec's data model lists and `lib.rs`
accesses). -/
structure Animal where
  position : ℝ × ℝ
  rotation : ℝ
  speed : ℝ
  eye : Eye
  brain : Brain
  satiation : ℕ

/-- Modelled from the spec: the world owns the animals and foods
(file `world.rs` is not among the provided sources). -/
structure World where
  animals : List Animal
  foods : List Food

/-- Euclidean distance between two points (`na::distance`). -/
def distance (p q : ℝ × ℝ) : ℝ :=
  Real.sqrt ((p.1 - q.1) ^ 2 + (p.2 - q.2) ^ 2)

/-- Principal-value normalisation of an angle into `(-π, π]`; this is what
storing an angle in an `na::Rotation2` and reading it back with `angle()`
computes in exact arithmetic. -/
def normAngle (θ : ℝ) : ℝ :=
  θ - (2 * Real.pi) * (⌈θ / (2 * Real.pi) - 1 / 2⌉ : ℤ)

/-- Two-argument arctangent, as the argument of the complex number `x + y i`. -/
def atan2 (y x : ℝ) : ℝ := Complex.arg ⟨x, y⟩

/-- Modelled from the spec: Eye::process_vision (§4.3; file `eye.rs` is not
among the provided sources).  For each food within the detection range and
the field of view, the signed angle to the food is mapped linearly onto one
of `cells` sectors and an intensity `(range - distance) / range` is added to
that sector. -/
def Eye.processVision (eye : Eye) (position : ℝ × ℝ) (rotation : ℝ)
    (foods : List Food) : List ℝ :=
  foods.foldl
    (fun acc food =>
      let d := distance position food.position
      if eye.fovRange < d then acc
      else
        let angle := normAngle
          (atan2 (food.position.2 - position.2) (food.position.1 - position.1) - rotation)
        if eye.fovAngle / 2 < |angle| then acc
        else
          let sector := min (⌈(angle + eye.fovAngle / 2) / eye.fovAngle *
            (eye.cells : ℝ)⌉.toNat) (eye.cells - 1)
          acc.set sector (acc.getD sector 0 + (eye.fovRange - d) / eye.fovRange))
    (List.replicate eye.cells 0)

/-! ### Collision phase (Simulation::process_collisions) -/

/-- One (animal, food) check of the collision phase: if the Euclidean
distance at the moment of the check is at most `0.013`, the food respawns at
a fresh random position and the animal's satiation increments. -/
def collideStep (st : Rng × Animal) (f : Food) : (Rng × Animal) × Food :=
  if distance st.2.position f.position ≤ 0.013 then
    ((st.1.drawPair.2, { st.2 with satiation := st.2.satiation + 1 }),
      ⟨st.1.drawPair.1⟩)
  else (st, f)

/-- The inner loop of the collision phase: one animal checked against every
food in order, threading the rng and the updated food list. -/
def collideFoods (st : Rng × Animal) : List Food → (Rng × Animal) × List Food
  | [] => (st, [])
  | f :: fs =>
    let p := collideStep st f
    let q := collideFoods p.1 fs
    (q.1, p.2 :: q.2)

/-- The outer loop of the collision phase: every animal in order, each seeing
the food positions left by the previous animals' checks. -/
def collideAnimals (rng : Rng) : List Animal → List Food → Rng × List Animal × List Food
  | [], foods => (rng, [], foods)
  | a :: as, foods =>
    let p := collideFoods (rng, a) foods
    let q := collideAnimals p.1.1 as p.2
    (q.1, p.1.2 :: q.2.1, q.2.2)

/-- Simulation::process_collisions. -/
def processCollisions (w : World) (rng : Rng) : World × Rng :=
  let r := collideAnimals rng w.animals w.foods
  (⟨r.2.1, r.2.2⟩, r.1)

/-! ### Brain phase (Simulation::process_brains) -/

/-- The network response of one animal to its current vision vector. -/
def brainResponse (foods : List Food) (a : Animal) : List ℝ :=
  a.brain.nn.propagate (a.eye.processVision a.position a.rotation foods)

/-- The speed delta: output scalar 0, clamped to `[-SPEED_ACCEL, SPEED_ACCEL]`. -/
def speedDelta (foods : List Food) (a : Animal) : ℝ :=
  clampF ((brainResponse foods a).getD 0 0) (-SPEED_ACCEL) SPEED_ACCEL

/-- The rotation delta: output scalar 1, clamped to
`[-ROTATION_ACCEL, ROTATION_ACCEL]`. -/
def rotDelta (foods : List Food) (a : Animal) : ℝ :=
  clampF ((brainResponse foods a).getD 1 0) (-ROTATION_ACCEL) ROTATION_ACCEL

/-- The per-animal body of Simulation::process_brains: clamp the new speed
into `[SPEED_MIN, SPEED_MAX]` and store the new heading through
`Rotation2::new`, i.e. normalised to its principal value. -/
def processBrainAnimal (foods : List Food) (a : Animal) : Animal :=
  { a with
    speed := clampF (a.speed + speedDelta foods a) SPEED_MIN SPEED_MAX
    rotation := normAngle (a.rotation + rotDelta foods a) }

/-- Simulation::process_brains. -/
def processBrains (w : World) : World :=
  ⟨w.animals.map (processBrainAnimal w.foods), w.foods⟩

/-! ### Movement phase (Simulation::process_movements) -/

/-- nalgebra's `wrap(val, lo, hi)`: repeatedly add or subtract the width
until the value lies in the closed interval `[lo, hi]`, in closed form. -/
def naWrap (val lo hi : ℝ) : ℝ :=
  if val < lo then val + (hi - lo) * (⌈(lo - val) / (hi - lo)⌉ : ℤ)
  else if hi < val then val - (hi - lo) * (⌈(val - hi) / (hi - lo)⌉ : ℤ)
  else val

/-- The x-coordinate after advancing: `rotation * Vector2::new(0, speed)`
contributes `-sin(rotation) * speed`. -/
def advanceX (a : Animal) : ℝ :=
  a.position.1 + -Real.sin a.rotation * a.speed

/-- The y-coordinate after advancing: contribution `cos(rotation) * speed`. -/
def advanceY (a : Animal) : ℝ :=
  a.position.2 + Real.cos a.rotation * a.speed

/-- The per-animal body of Simulation::process_movements: advance along the
heading, then wrap both coordinates with `na::wrap(·, 0.0, 1.0)`. -/
def moveAnimal (a : Animal) : Animal :=
  { a with position := (naWrap (advanceX a) 0 1, naWrap (advanceY a) 0 1) }

/-- Simulation::process_movements. -/
def processMovements (w : World) : World :=
  ⟨w.animals.map moveAnimal, w.foods⟩

/-! ### Genetic algorithm (Modelled from the spec)

The `lib-genetic-algorithm` crate and the `animal_individual.rs` adapter are
not among the provided sources; the definitions below follow §4.2 and §4.4 of
the specification. -/

/-- Modelled from the spec: the Statistics summary of the outgoing
population's fitness distribution — minimum, maximum and arithmetic mean. -/
structure Statistics where
  minFitness : ℝ
  maxFitness : ℝ
  avgFitness : ℝ

/-- Modelled from the spec: Statistics of a fitness list. -/
def statisticsOf (fs : List ℝ) : Statistics :=
  ⟨fs.foldl min (fs.headD 0), fs.foldl max (fs.headD 0), fs.sum / fs.length⟩

/-- Modelled from the spec: an Individual pairing a fitness scalar with a
genome (the AnimalIndividual adapter). -/
structure AnimalIndividual where
  fitness : ℝ
  chromosome : List ℝ

instance : Inhabited AnimalIndividual := ⟨⟨0, []⟩⟩

/-- Modelled from the spec: roulette-wheel pick — return the first individual
whose cumulative weight exceeds the scaled draw. -/
def pickCumulative (target : ℝ) : List AnimalIndividual → AnimalIndividual
  | [] => default
  | [i] => i
  | i :: rest => if target < i.fitness then i else pickCumulative (target - i.fitness) rest

/-- Modelled from the spec: roulette-wheel selection with the uniform
fallback when the total fitness is zero. -/
def selectRoulette (rng : Rng) (pop : List AnimalIndividual) : AnimalIndividual × Rng :=
  let total := (pop.map (fun i => i.fitness)).sum
  let d := rng.draw
  if total ≤ 0 then
    (pop.getD (⌊d.1 * pop.length⌋.toNat % max pop.length 1) default, d.2)
  else
    (pickCumulative (d.1 * total) pop, d.2)

/-- Modelled from the spec: uniform crossover — each child gene copied from
parent A or parent B with probability one half. -/
def uniformCrossover (rng : Rng) : List ℝ → List ℝ → List ℝ × Rng
  | [], _ => ([], rng)
  | _ :: _, [] => ([], rng)
  | ga :: gas, gb :: gbs =>
    let d := rng.draw
    let rest := uniformCrossover d.2 gas gbs
    ((if d.1 < 1 / 2 then ga else gb) :: rest.1, rest.2)

/-- Modelled from the spec: Gaussian-style mutation — every gene is visited;
with probability `chance` a perturbation of magnitude at most `coeff` and
uniformly random sign is added. -/
def gaussianMutate (chance coeff : ℝ) (rng : Rng) : List ℝ → List ℝ × Rng
  | [] => ([], rng)
  | g :: gs =>
    let dchance := rng.draw
    let dsign := dchance.2.draw
    let dmag := dsign.2.draw
    let g2 := if dchance.1 < chance
      then g + (if dsign.1 < 1 / 2 then -1 else 1) * (dmag.1 * coeff)
      else g
    let rest := gaussianMutate chance coeff dmag.2 gs
    (g2 :: rest.1, rest.2)

/-- Modelled from the spec: produce one child genome — select two parents,
cross them over, mutate the result (mutation chance 0.01, coefficient 0.3 as
configured in `Simulation::random`). -/
def breedChild (pop : List AnimalIndividual) (rng : Rng) : List ℝ × Rng :=
  let p1 := selectRoulette rng pop
  let p2 := selectRoulette p1.2 pop
  let c := uniformCrossover p2.2 p1.1.chromosome p2.1.chromosome
  gaussianMutate 0.01 0.3 c.2 c.1

/-- Modelled from the spec: breed one child genome per population slot. -/
def breedAll (pop : List AnimalIndividual) : ℕ → Rng → List (List ℝ) × Rng
  | 0, rng => ([], rng)
  | n + 1, rng =>
    let c := breedChild pop rng
    let rest := breedAll pop n c.2
    (c.1 :: rest.1, rest.2)

/-- Modelled from the spec: GeneticAlgorithm::evolve — statistics of the
outgoing population plus one evolved genome per slot. -/
def gaEvolve (rng : Rng) (pop : List AnimalIndividual) :
    List (List ℝ) × Statistics × Rng :=
  let stats := statisticsOf (pop.map (fun i => i.fitness))
  let bred := breedAll pop pop.length rng
  (bred.1, stats, bred.2)

/-- Modelled from the spec: the default Eye configuration used when animals
are rebuilt (the spec names the three parameters but fixes no values; the
values here are the customary shorelark defaults and no claim depends on
them). -/
def defaultEye : Eye := ⟨0.25, Real.pi + Real.pi / 4, 9⟩

instance : Inhabited Eye := ⟨defaultEye⟩

instance : Inhabited Network := ⟨⟨[]⟩⟩

instance : Inhabited Brain := ⟨⟨⟨[]⟩⟩⟩

instance : Inhabited Animal := ⟨⟨(0, 0), 0, 0, default, default, 0⟩⟩

/-- Modelled from the spec: AnimalIndividual::from_animal — fitness is the
satiation count, the genome is the brain's flattened parameters. -/
def AnimalIndividual.fromAnimal (a : Animal) : AnimalIndividual :=
  ⟨(a.satiation : ℝ), a.brain.nn.weights⟩

/-- Modelled from the spec: rebuild an animal from an evolved genome — fresh
random position, heading and speed, brain reconstructed from the genome over
the topology derived from the eye, satiation reset to 0. -/
def AnimalIndividual.intoAnimal (chromosome : List ℝ) (rng : Rng) : Animal × Rng :=
  let dpos := rng.drawPair
  let drot := dpos.2.draw
  let dspeed := drot.2.draw
  ({ position := dpos.1
     rotation := normAngle drot.1
     speed := dspeed.1
     eye := defaultEye
     brain := ⟨(Network.fromWeights (Brain.topology defaultEye) chromosome).getD default⟩
     satiation := 0 }, dspeed.2)

/-- Rebuild the whole animal list, threading the rng. -/
def rebuildAnimals : List (List ℝ) → Rng → List Animal × Rng
  | [], rng => ([], rng)
  | c :: cs, rng =>
    let p := AnimalIndividual.intoAnimal c rng
    let rest := rebuildAnimals cs p.2
    (p.1 :: rest.1, rest.2)

/-- Respawn every food at a fresh random position. -/
def respawnFoods : List Food → Rng → List Food × Rng
  | [], rng => ([], rng)
  | _ :: fs, rng =>
    let d := rng.drawPair
    let rest := respawnFoods fs d.2
    (⟨d.1⟩ :: rest.1, rest.2)

/-- Simulation::evolve, acting on the world: form the individuals, run the
genetic algorithm, rebuild the animals, respawn all foods, and return the
outgoing Statistics (the step-age reset is handled by the caller `step`). -/
def evolveWorld (w : World) (rng : Rng) : Statistics × World × Rng :=
  let pop := w.animals.map AnimalIndividual.fromAnimal
  let e := gaEvolve rng pop
  let na := rebuildAnimals e.1 e.2.2
  let nf := respawnFoods w.foods na.2
  (e.2.1, ⟨na.1, nf.1⟩, nf.2)

/-! ### The step state machine (Simulation::step) -/

/-- The simulation state: the world plus the step-age counter (the genetic
algorithm's strategies are fixed at construction and carry no state). -/
structure Simulation where
  world : World
  age : ℕ

/-- Simulation::step — collisions, brains, movements, increment the age, and
fire `evolve` (resetting the age to 0) once the age exceeds
GENERATION_LENGTH. -/
def Simulation.step (s : Simulation) (rng : Rng) :
    Simulation × Rng × Option Statistics :=
  let c := processCollisions s.world rng
  let w3 := processMovements (processBrains c.1)
  if s.age + 1 > GENERATION_LENGTH then
    let e := evolveWorld w3 c.2
    (⟨e.2.1, 0⟩, e.2.2, some e.1)
  else
    (⟨w3, s.age + 1⟩, c.2, none)

/-- Run `n` consecutive calls of Simulation::step, collecting each call's
return value in order. -/
def runSteps : ℕ → Simulation → Rng → Simulation × Rng × List (Option Statistics)
  | 0, s, r => (s, r, [])
  | n + 1, s, r =>
    let p := s.step r
    let rest := runSteps n p.1 p.2.1
    (rest.1, rest.2.1, p.2.2 :: rest.2.2)

/-! ## Generation-boundary timing (claim C2) -/

theorem Simulation.step_of_le (s : Simulation) (r : Rng)
    (h : s.age + 1 ≤ GENERATION_LENGTH) :
    (s.step r).1.age = s.age + 1 ∧ (s.step r).2.2 = none := by
  constructor <;> simp [Simulation.step, if_neg (by omega : ¬ s.age + 1 > GENERATION_LENGTH)]

theorem Simulation.step_of_gt (s : Simulation) (r : Rng)
    (h : GENERATION_LENGTH < s.age + 1) :
    (s.step r).1.age = 0 ∧ ∃ st : Statistics, (s.step r).2.2 = some st := by
  constructor
  · simp [Simulation.step, if_pos h]
  · refine ⟨(evolveWorld (processMovements (processBrains (processCollisions s.world r).1))
      (processCollisions s.world r).2).1, ?_⟩
    simp [Simulation.step, if_pos h]

theorem runSteps_succ (n : ℕ) (s : Simulation) (r : Rng) :
    runSteps (n + 1) s r =
      ((runSteps n (s.step r).1 (s.step r).2.1).1,
       (runSteps n (s.step r).1 (s.step r).2.1).2.1,
       (s.step r).2.2 :: (runSteps n (s.step r).1 (s.step r).2.1).2.2) := rfl

theorem runSteps_boundary (n : ℕ) (s : Simulation) (r : Rng)
    (hn : 1 ≤ n) (h : s.age + n = GENERATION_LENGTH + 1) :
    ∃ st : Statistics,
      (runSteps n s r).2.2 = List.replicate (n - 1) none ++ [some st] ∧
      (runSteps n s r).1.age = 0 := by
  induction n generalizing s r with
  | zero => omega
  | succ n ih =>
    cases n with
    | zero =>
      obtain ⟨hage, st, hst⟩ := Simulation.step_of_gt s r (by omega)
      refine ⟨st, ?_, ?_⟩
      · rw [runSteps_succ]
        simp [runSteps, hst]
      · rw [runSteps_succ]
        simp [runSteps, hage]
    | succ m =>
      obtain ⟨hage, hnone⟩ := Simulation.step_of_le s r (by omega)
      obtain ⟨st, hr1, hr2⟩ := ih (s.step r).1 (s.step r).2.1 (by omega) (by omega)
      refine ⟨st, ?_, ?_⟩
      · rw [runSteps_succ]
        rw [show m + 1 - 1 = m from rfl] at hr1
        simp [hnone, hr1, List.replicate_succ]
      · rw [runSteps_succ]
        simpa using hr2

/-- C2: from a freshly constructed simulation (step-age 0), the first
GENERATION_LENGTH calls of `step` all return `none` and the
(GENERATION_LENGTH + 1)-th returns `some` Statistics, with the step-age
counter equal to 0 immediately after that call. -/
theorem C2_generationBoundary (s : Simulation) (r : Rng) (h0 : s.age = 0) :
    ∃ st : Statistics,
      (runSteps (GENERATION_LENGTH + 1) s r).2.2 =
        List.replicate GENERATION_LENGTH none ++ [some st] ∧
      (runSteps (GENERATION_LENGTH + 1) s r).1.age = 0 := by
  simpa using runSteps_boundary (GENERATION_LENGTH + 1) s r (by omega) (by omega)

/-- An empty fresh simulation state. -/
def emptySim : Simulation := ⟨⟨[], []⟩, 0⟩

/-- The all-zeros randomness stream. -/
def zeroRng : Rng := ⟨fun _ => 0, 0⟩

/-- Witness for C2 at the concrete fresh simulation. -/
theorem C2_generationBoundary_witness :
    emptySim.age = 0 ∧
    ∃ st : Statistics,
      (runSteps (GENERATION_LENGTH + 1) emptySim zeroRng).2.2 =
        List.replicate GENERATION_LENGTH none ++ [some st] ∧
      (runSteps (GENERATION_LENGTH + 1) emptySim zeroRng).1.age = 0 :=
  ⟨rfl, C2_generationBoundary emptySim zeroRng rfl⟩

/-! ## Determinism (claim C8) -/

/-- C8: two invocations of `step` (and of any run of consecutive steps) from
equal simulation states, consuming equal sequences of values from the
randomness capability, produce equal states, rng cursors and return values. -/
theorem C8_step_deterministic (s1 s2 : Simulation) (r1 r2 : Rng) (n : ℕ)
    (hs : s1 = s2) (hstream : ∀ i, r1.stream i = r2.stream i)
    (hidx : r1.idx = r2.idx) :
    s1.step r1 = s2.step r2 ∧ runSteps n s1 r1 = runSteps n s2 r2 := by
  obtain ⟨st1, i1⟩ := r1
  obtain ⟨st2, i2⟩ := r2
  have hst : st1 = st2 := funext hstream
  subst hst
  subst hidx
  subst hs
  exact ⟨rfl, rfl⟩

/-- Witness for C8 at the concrete empty simulation and zero stream. -/
theorem C8_step_deterministic_witness :
    emptySim.step zeroRng = emptySim.step zeroRng ∧
    runSteps 3 emptySim zeroRng = runSteps 3 emptySim zeroRng :=
  C8_step_deterministic emptySim emptySim zeroRng zeroRng 3 rfl (fun _ => rfl) rfl

/-! ## Angle normalisation -/

theorem normAngle_sub_int (θ : ℝ) : ∃ k : ℤ, normAngle θ = θ - 2 * Real.pi * k :=
  ⟨⌈θ / (2 * Real.pi) - 1 / 2⌉, rfl⟩

theorem normAngle_mem (θ : ℝ) : -Real.pi < normAngle θ ∧ normAngle θ ≤ Real.pi := by
  have hpi := Real.pi_pos
  have h2 : (0 : ℝ) < 2 * Real.pi := by linarith
  set u : ℝ := θ / (2 * Real.pi) with hu
  have hcan : 2 * Real.pi * u = θ := by
    rw [hu]
    field_simp
  have hle : u - 1 / 2 ≤ ((⌈u - 1 / 2⌉ : ℤ) : ℝ) := Int.le_ceil _
  have hlt : ((⌈u - 1 / 2⌉ : ℤ) : ℝ) < u - 1 / 2 + 1 := Int.ceil_lt_add_one _
  have hrw : normAngle θ = 2 * Real.pi * (u - ((⌈u - 1 / 2⌉ : ℤ) : ℝ)) := by
    rw [normAngle, mul_sub, hcan, hu]
  constructor
  · rw [hrw]
    nlinarith
  · rw [hrw]
    nlinarith

/-! ## Movement phase (claim C7) -/

theorem naWrap01_spec (x : ℝ) :
    0 ≤ naWrap x 0 1 ∧ naWrap x 0 1 ≤ 1 ∧
    (∃ k : ℤ, naWrap x 0 1 = x - k) ∧
    (naWrap x 0 1 = 1 → 1 ≤ x ∧ ∃ m : ℤ, x = (m : ℝ)) := by
  unfold naWrap
  simp only [sub_zero, zero_sub, div_one, one_mul]
  by_cases h1 : x < 0
  · rw [if_pos h1]
    have hle : -x ≤ ((⌈-x⌉ : ℤ) : ℝ) := Int.le_ceil _
    have hlt : ((⌈-x⌉ : ℤ) : ℝ) < -x + 1 := Int.ceil_lt_add_one _
    refine ⟨by linarith, by linarith, ⟨-⌈-x⌉, by push_cast; ring⟩, ?_⟩
    intro heq
    exact absurd heq (by exact ne_of_lt (by linarith))
  · rw [if_neg h1]
    by_cases h2 : 1 < x
    · rw [if_pos h2]
      have hle : x - 1 ≤ ((⌈x - 1⌉ : ℤ) : ℝ) := Int.le_ceil _
      have hlt : ((⌈x - 1⌉ : ℤ) : ℝ) < x - 1 + 1 := Int.ceil_lt_add_one _
      refine ⟨by linarith, by linarith, ⟨⌈x - 1⌉, by ring⟩, ?_⟩
      intro heq
      refine ⟨by linarith, ⟨⌈x - 1⌉ + 1, ?_⟩⟩
      push_cast
      linarith
    · rw [if_neg h2]
      refine ⟨by linarith, by linarith, ⟨0, by simp⟩, ?_⟩
      intro heq
      exact ⟨le_of_eq heq.symm, ⟨1, by rw [heq]; simp⟩⟩

/-- The animal of the spec's own boundary scenario: y-coordinate `0.999`,
heading 0, speed `0.001` (inside `[SPEED_MIN, SPEED_MAX]`), whose advance
lands exactly on `1.0`. -/
def c7Animal : Animal := ⟨(1 / 2, 999 / 1000), 0, 1 / 1000, defaultEye, default, 0⟩

/-- A world holding only `c7Animal`. -/
def c7World : World := ⟨[c7Animal], []⟩

/-- C7 as stated is false at a concrete boundary input: an animal at
`y = 0.999` with heading 0 and speed `0.001` advances to exactly `1.0`, and
nalgebra's `wrap` (which wraps into the closed interval `[lo, hi]`) leaves
`1.0` unchanged, so after the movement phase the coordinate is `1`, not
inside `[0, 1)`. -/
theorem C7_counterexample :
    (processMovements c7World).animals.headI.position.2 = 1 ∧
    ¬ (processMovements c7World).animals.headI.position.2 < 1 := by
  have hadv : advanceY c7Animal = 1 := by
    simp only [advanceY, c7Animal]
    rw [Real.cos_zero]
    norm_num
  have hval : (processMovements c7World).animals.headI.position.2 = 1 := by
    simp only [processMovements, c7World, List.map_cons, List.map_nil, List.headI,
      moveAnimal]
    rw [hadv]
    rw [naWrap]
    norm_num
  exact ⟨hval, by rw [hval]; exact lt_irrefl 1⟩

/-- C7 amended: after the movement phase every animal is its pre-move
counterpart advanced along its heading by its speed and wrapped; both
coordinates lie in the closed interval `[0, 1]`, each differs from the
advanced value by an integer, and a coordinate can equal `1` (the only value
outside `[0, 1)`) only when the advanced value is an integer at least `1` —
e.g. an advance landing exactly on `1.0`. -/
theorem C7_movementWrap (w : World) (a2 : Animal)
    (ha : a2 ∈ (processMovements w).animals) :
    ∃ b ∈ w.animals, a2 = moveAnimal b ∧
      (0 ≤ a2.position.1 ∧ a2.position.1 ≤ 1) ∧
      (0 ≤ a2.position.2 ∧ a2.position.2 ≤ 1) ∧
      (∃ kx : ℤ, a2.position.1 = advanceX b - kx) ∧
      (∃ ky : ℤ, a2.position.2 = advanceY b - ky) ∧
      (a2.position.1 = 1 → 1 ≤ advanceX b ∧ ∃ mx : ℤ, advanceX b = (mx : ℝ)) ∧
      (a2.position.2 = 1 → 1 ≤ advanceY b ∧ ∃ my : ℤ, advanceY b = (my : ℝ)) := by
  simp only [processMovements, List.mem_map] at ha
  obtain ⟨b, hb, hba⟩ := ha
  have hx := naWrap01_spec (advanceX b)
  have hy := naWrap01_spec (advanceY b)
  have hpx : (moveAnimal b).position.1 = naWrap (advanceX b) 0 1 := rfl
  have hpy : (moveAnimal b).position.2 = naWrap (advanceY b) 0 1 := rfl
  subst hba
  exact ⟨b, hb, rfl,
    ⟨by rw [hpx]; exact hx.1, by rw [hpx]; exact hx.2.1⟩,
    ⟨by rw [hpy]; exact hy.1, by rw [hpy]; exact hy.2.1⟩,
    by rw [hpx]; exact hx.2.2.1,
    by rw [hpy]; exact hy.2.2.1,
    by rw [hpx]; exact hx.2.2.2,
    by rw [hpy]; exact hy.2.2.2⟩

/-- An ordinary interior animal for the C7 witness. -/
def c7bAnimal : Animal := ⟨(1 / 2, 1 / 2), 0, 1 / 1000, defaultEye, default, 0⟩

/-- A world holding only `c7bAnimal`. -/
def c7bWorld : World := ⟨[c7bAnimal], []⟩

/-- Witness for the amended C7 at a concrete world. -/
theorem C7_movementWrap_witness :
    moveAnimal c7bAnimal ∈ (processMovements c7bWorld).animals ∧
    ∃ b ∈ c7bWorld.animals, moveAnimal c7bAnimal = moveAnimal b ∧
      (0 ≤ (moveAnimal c7bAnimal).position.1 ∧ (moveAnimal c7bAnimal).position.1 ≤ 1) ∧
      (0 ≤ (moveAnimal c7bAnimal).position.2 ∧ (moveAnimal c7bAnimal).position.2 ≤ 1) ∧
      (∃ kx : ℤ, (moveAnimal c7bAnimal).position.1 = advanceX b - kx) ∧
      (∃ ky : ℤ, (moveAnimal c7bAnimal).position.2 = advanceY b - ky) ∧
      ((moveAnimal c7bAnimal).position.1 = 1 →
        1 ≤ advanceX b ∧ ∃ mx : ℤ, advanceX b = (mx : ℝ)) ∧
      ((moveAnimal c7bAnimal).position.2 = 1 →
        1 ≤ advanceY b ∧ ∃ my : ℤ, advanceY b = (my : ℝ)) :=
  ⟨by simp [processMovements, c7bWorld],
   C7_movementWrap c7bWorld (moveAnimal c7bAnimal)
     (by simp [processMovements, c7bWorld])⟩

/-! ## Collision phase (claim C6) -/

/-- C6: at every (animal, food) check of the collision phase, a pair at
Euclidean distance at most `0.013` has the food respawned at the fresh
random position drawn from the capability and the animal's satiation
incremented by exactly 1 (its other fields untouched); a pair farther apart
leaves animal, food and rng all unchanged. -/
theorem C6_collisionCheck (st : Rng × Animal) (f : Food) :
    (distance st.2.position f.position ≤ 0.013 →
      (collideStep st f).2.position = st.1.drawPair.1 ∧
      (collideStep st f).1.2.satiation = st.2.satiation + 1 ∧
      (collideStep st f).1.1 = st.1.drawPair.2 ∧
      (collideStep st f).1.2.position = st.2.position ∧
      (collideStep st f).1.2.speed = st.2.speed ∧
      (collideStep st f).1.2.rotation = st.2.rotation) ∧
    (¬ distance st.2.position f.position ≤ 0.013 →
      collideStep st f = (st, f)) := by
  constructor
  · intro h
    simp [collideStep, if_pos h]
  · intro h
    simp [collideStep, if_neg h]

/-- The animal of the spec's end-to-end collision scenario: position
`(0.5, 0.5)`, heading 0, satiation 0. -/
def c6Animal : Animal := ⟨(1 / 2, 1 / 2), 0, 1 / 500, defaultEye, default, 0⟩

/-- Witness for C6: food exactly at the animal's position is eaten (satiation
0 becomes 1, food respawns at the drawn position); food at distance `0.4` is
left alone. -/
theorem C6_collisionCheck_witness :
    (distance (1 / 2, 1 / 2) ((1 : ℝ) / 2, (1 : ℝ) / 2) ≤ 0.013 ∧
      (collideStep (zeroRng, c6Animal) ⟨(1 / 2, 1 / 2)⟩).2.position
          = (zeroRng, c6Animal).1.drawPair.1 ∧
      (collideStep (zeroRng, c6Animal) ⟨(1 / 2, 1 / 2)⟩).1.2.satiation
          = c6Animal.satiation + 1) ∧
    (¬ distance (1 / 2, 1 / 2) ((9 : ℝ) / 10, (1 : ℝ) / 2) ≤ 0.013 ∧
      collideStep (zeroRng, c6Animal) ⟨(9 / 10, 1 / 2)⟩
          = ((zeroRng, c6Animal), ⟨(9 / 10, 1 / 2)⟩)) := by
  have hnear : distance ((1 : ℝ) / 2, (1 : ℝ) / 2) ((1 : ℝ) / 2, (1 : ℝ) / 2) ≤ 0.013 := by
    simp [distance]
    norm_num
  have hfar : ¬ distance ((1 : ℝ) / 2, (1 : ℝ) / 2) ((9 : ℝ) / 10, (1 : ℝ) / 2) ≤ 0.013 := by
    simp only [distance]
    push_neg
    rw [show ((1 : ℝ) / 2 - 9 / 10) ^ 2 + (1 / 2 - 1 / 2) ^ 2 = 4 / 25 by norm_num]
    have : (0.013 : ℝ) ^ 2 < 4 / 25 := by norm_num
    exact (Real.lt_sqrt (by norm_num)).mpr this
  have h1 := (C6_collisionCheck (zeroRng, c6Animal) ⟨(1 / 2, 1 / 2)⟩).1 (by exact hnear)
  have h2 := (C6_collisionCheck (zeroRng, c6Animal) ⟨(9 / 10, 1 / 2)⟩).2 (by exact hfar)
  exact ⟨⟨hnear, h1.1, h1.2.1⟩, ⟨hfar, h2⟩⟩

/-! ## Brain phase (claims C5, C9, C10) -/

theorem clampF_mem (x lo hi : ℝ) (h : lo ≤ hi) :
    lo ≤ clampF x lo hi ∧ clampF x lo hi ≤ hi :=
  ⟨le_min (le_max_right x lo) h, min_le_right _ _⟩

/-- C5: in the brain phase, for every animal whose speed lies in
`[SPEED_MIN, SPEED_MAX]` beforehand, the two network outputs are clamped to
`[-SPEED_ACCEL, SPEED_ACCEL]` and `[-ROTATION_ACCEL, ROTATION_ACCEL]`, the
new speed is the previous speed plus the clamped speed delta clamped back
into `[SPEED_MIN, SPEED_MAX]`, and the new heading is the previous heading
plus the clamped rotation delta modulo a full turn (normalised into
`(-π, π]`). -/
theorem C5_brainPhase (foods : List Food) (a : Animal)
    (hmin : SPEED_MIN ≤ a.speed) (hmax : a.speed ≤ SPEED_MAX) :
    (processBrainAnimal foods a).speed
        = clampF (a.speed + speedDelta foods a) SPEED_MIN SPEED_MAX ∧
    -SPEED_ACCEL ≤ speedDelta foods a ∧ speedDelta foods a ≤ SPEED_ACCEL ∧
    -ROTATION_ACCEL ≤ rotDelta foods a ∧ rotDelta foods a ≤ ROTATION_ACCEL ∧
    SPEED_MIN ≤ (processBrainAnimal foods a).speed ∧
    (processBrainAnimal foods a).speed ≤ SPEED_MAX ∧
    (∃ k : ℤ, (processBrainAnimal foods a).rotation
        = a.rotation + rotDelta foods a - 2 * Real.pi * k) ∧
    -Real.pi < (processBrainAnimal foods a).rotation ∧
    (processBrainAnimal foods a).rotation ≤ Real.pi := by
  have hpi := Real.pi_pos
  have hsa : -SPEED_ACCEL ≤ SPEED_ACCEL := by norm_num [SPEED_ACCEL]
  have hra : -ROTATION_ACCEL ≤ ROTATION_ACCEL := by
    simp only [ROTATION_ACCEL]
    linarith
  have hsm : SPEED_MIN ≤ SPEED_MAX := by norm_num [SPEED_MIN, SPEED_MAX]
  have h1 := clampF_mem ((brainResponse foods a).getD 0 0) (-SPEED_ACCEL) SPEED_ACCEL hsa
  have h2 := clampF_mem ((brainResponse foods a).getD 1 0) (-ROTATION_ACCEL)
    ROTATION_ACCEL hra
  have h3 := clampF_mem (a.speed + speedDelta foods a) SPEED_MIN SPEED_MAX hsm
  have hrot : (processBrainAnimal foods a).rotation
      = normAngle (a.rotation + rotDelta foods a) := rfl
  obtain ⟨k, hk⟩ := normAngle_sub_int (a.rotation + rotDelta foods a)
  have hmem := normAngle_mem (a.rotation + rotDelta foods a)
  exact ⟨rfl, h1.1, h1.2, h2.1, h2.2, h3.1, h3.2,
    ⟨k, by rw [hrot, hk]⟩,
    by rw [hrot]; exact hmem.1,
    by rw [hrot]; exact hmem.2⟩

/-- The eye of the concrete brain-phase witnesses: one vision cell. -/
def c9Eye : Eye := ⟨1, 1, 1⟩

/-- A concrete brain of the shape `Brain::topology` dictates for a one-cell
eye: topology `[1, 2, 2]`. -/
def c9Brain : Brain := ⟨⟨[⟨[⟨0, [0]⟩, ⟨0, [0]⟩]⟩, ⟨[⟨0, [0, 0]⟩, ⟨0, [0, 0]⟩]⟩]⟩⟩

/-- A concrete animal with a shape-correct brain and in-range speed. -/
def c9Animal : Animal := ⟨(1 / 2, 1 / 2), 0, 1 / 500, c9Eye, c9Brain, 0⟩

/-- Witness for C5 at the concrete animal. -/
theorem C5_brainPhase_witness :
    (SPEED_MIN ≤ c9Animal.speed ∧ c9Animal.speed ≤ SPEED_MAX) ∧
    ((processBrainAnimal [] c9Animal).speed
        = clampF (c9Animal.speed + speedDelta [] c9Animal) SPEED_MIN SPEED_MAX ∧
      -SPEED_ACCEL ≤ speedDelta [] c9Animal ∧ speedDelta [] c9Animal ≤ SPEED_ACCEL ∧
      -ROTATION_ACCEL ≤ rotDelta [] c9Animal ∧ rotDelta [] c9Animal ≤ ROTATION_ACCEL ∧
      SPEED_MIN ≤ (processBrainAnimal [] c9Animal).speed ∧
      (processBrainAnimal [] c9Animal).speed ≤ SPEED_MAX ∧
      (∃ k : ℤ, (processBrainAnimal [] c9Animal).rotation
          = c9Animal.rotation + rotDelta [] c9Animal - 2 * Real.pi * k) ∧
      -Real.pi < (processBrainAnimal [] c9Animal).rotation ∧
      (processBrainAnimal [] c9Animal).rotation ≤ Real.pi) := by
  have hmin : SPEED_MIN ≤ c9Animal.speed := by
    simp only [c9Animal, SPEED_MIN]
    norm_num
  have hmax : c9Animal.speed ≤ SPEED_MAX := by
    simp only [c9Animal, SPEED_MAX]
    norm_num
  exact ⟨⟨hmin, hmax⟩, C5_brainPhase [] c9Animal hmin hmax⟩

theorem getD_nonneg_of_forall (l : List ℝ) (i : ℕ) (h : ∀ x ∈ l, 0 ≤ x) :
    0 ≤ l.getD i 0 := by
  induction l generalizing i with
  | nil => simp [List.getD]
  | cons x xs ih =>
    cases i with
    | zero => simpa using h x (by simp)
    | succ j => simpa using ih j (fun y hy => h y (by simp [hy]))

/-- C9: because the rectified-linear activation is applied at the output
layer too, both network outputs are nonnegative, so after clamping the speed
delta lies in `[0, SPEED_ACCEL]`, the rotation delta lies in
`[0, ROTATION_ACCEL]` (never negative), and the brain phase never decreases
the speed of an animal whose speed was in `[SPEED_MIN, SPEED_MAX]`. -/
theorem C9_reluFloor (foods : List Food) (a : Animal)
    (hb : a.brain.nn.matchesShape (Brain.topology a.eye))
    (hmin : SPEED_MIN ≤ a.speed) (hmax : a.speed ≤ SPEED_MAX) :
    0 ≤ speedDelta foods a ∧ speedDelta foods a ≤ SPEED_ACCEL ∧
    0 ≤ rotDelta foods a ∧ rotDelta foods a ≤ ROTATION_ACCEL ∧
    a.speed ≤ (processBrainAnimal foods a).speed := by
  have hpi := Real.pi_pos
  have hne : a.brain.nn.layers ≠ [] :=
    Network.layers_ne_nil_of_matchesShape _ _ (by simp [Brain.topology]) hb
  have hnn : ∀ x ∈ brainResponse foods a, 0 ≤ x :=
    Network.propagate_nonneg a.brain.nn.layers _ hne
  have hr0 : 0 ≤ (brainResponse foods a).getD 0 0 := getD_nonneg_of_forall _ _ hnn
  have hr1 : 0 ≤ (brainResponse foods a).getD 1 0 := getD_nonneg_of_forall _ _ hnn
  have hd0 : 0 ≤ speedDelta foods a :=
    le_min (le_max_of_le_left hr0) (by norm_num [SPEED_ACCEL])
  have hd1 : 0 ≤ rotDelta foods a :=
    le_min (le_max_of_le_left hr1) (by simp only [ROTATION_ACCEL]; linarith)
  refine ⟨hd0, min_le_right _ _, hd1, min_le_right _ _, ?_⟩
  exact le_min (le_max_of_le_left (by linarith)) hmax

/-- Witness for C9 at the concrete shape-correct animal. -/
theorem C9_reluFloor_witness :
    (c9Animal.brain.nn.matchesShape (Brain.topology c9Animal.eye) ∧
      SPEED_MIN ≤ c9Animal.speed ∧ c9Animal.speed ≤ SPEED_MAX) ∧
    (0 ≤ speedDelta [] c9Animal ∧ speedDelta [] c9Animal ≤ SPEED_ACCEL ∧
      0 ≤ rotDelta [] c9Animal ∧ rotDelta [] c9Animal ≤ ROTATION_ACCEL ∧
      c9Animal.speed ≤ (processBrainAnimal [] c9Animal).speed) := by
  have hb : c9Animal.brain.nn.matchesShape (Brain.topology c9Animal.eye) := by
    simp [c9Animal, c9Brain, c9Eye, Network.matchesShape, Brain.topology,
      Layer.matchesShape]
  have hmin : SPEED_MIN ≤ c9Animal.speed := by
    simp only [c9Animal, SPEED_MIN]
    norm_num
  have hmax : c9Animal.speed ≤ SPEED_MAX := by
    simp only [c9Animal, SPEED_MAX]
    norm_num
  exact ⟨⟨hb, hmin, hmax⟩, C9_reluFloor [] c9Animal hb hmin hmax⟩

/-- The vision vector always has one entry per eye cell. -/
theorem Eye.processVision_length (eye : Eye) (position : ℝ × ℝ) (rotation : ℝ)
    (foods : List Food) :
    (eye.processVision position rotation foods).length = eye.cells := by
  suffices h : ∀ (fs : List Food) (acc : List ℝ),
      (fs.foldl
        (fun acc food =>
          let d := distance position food.position
          if eye.fovRange < d then acc
          else
            let angle := normAngle
              (atan2 (food.position.2 - position.2) (food.position.1 - position.1)
                - rotation)
            if eye.fovAngle / 2 < |angle| then acc
            else
              let sector := min (⌈(angle + eye.fovAngle / 2) / eye.fovAngle *
                (eye.cells : ℝ)⌉.toNat) (eye.cells - 1)
              acc.set sector (acc.getD sector 0 + (eye.fovRange - d) / eye.fovRange))
        acc).length = acc.length by
    rw [Eye.processVision, h]
    simp
  intro fs
  induction fs with
  | nil => intro acc; rfl
  | cons f fs ih =>
    intro acc
    simp only [List.foldl_cons]
    rw [ih]
    by_cases h1 : eye.fovRange < distance position f.position
    · rw [if_pos h1]
    · rw [if_neg h1]
      by_cases h2 : eye.fovAngle / 2 <
          |normAngle (atan2 (f.position.2 - position.2) (f.position.1 - position.1)
            - rotation)|
      · rw [if_pos h2]
      · rw [if_neg h2]
        simp

/-- C10: the brain's topology is exactly `[cells, 2*cells, 2]`, so a
shape-correct brain turns any vision vector of length `cells` — in
particular the one `process_vision` produces — into a response of length
exactly 2, making the accesses to response elements 0 and 1 in the brain
phase in bounds. -/
theorem C10_topologySafe (eye : Eye) (brain : Brain) (vision : List ℝ)
    (hb : brain.nn.matchesShape (Brain.topology eye))
    (hv : vision.length = eye.cells) :
    Brain.topology eye = [eye.cells, 2 * eye.cells, 2] ∧
    (brain.nn.propagate vision).length = 2 ∧
    ((brain.nn.propagate vision)[0]?).isSome ∧
    ((brain.nn.propagate vision)[1]?).isSome ∧
    ∀ (position : ℝ × ℝ) (rotation : ℝ) (foods : List Food),
      (eye.processVision position rotation foods).length = eye.cells := by
  have hlen : (brain.nn.propagate vision).length = 2 := by
    have h := C3_propagate_shape (Brain.topology eye) brain.nn vision
      (by simp [Brain.topology]) hb (by simpa [Brain.topology] using hv)
    simpa [Brain.topology] using h.1
  refine ⟨rfl, hlen, ?_, ?_, fun p r fs => Eye.processVision_length eye p r fs⟩
  · rw [List.getElem?_eq_getElem (by omega : 0 < (brain.nn.propagate vision).length)]
    rfl
  · rw [List.getElem?_eq_getElem (by omega : 1 < (brain.nn.propagate vision).length)]
    rfl

/-- Witness for C10 at the concrete one-cell eye and shape-correct brain. -/
theorem C10_topologySafe_witness :
    (c9Brain.nn.matchesShape (Brain.topology c9Eye) ∧
      [(0 : ℝ)].length = c9Eye.cells) ∧
    (Brain.topology c9Eye = [c9Eye.cells, 2 * c9Eye.cells, 2] ∧
      (c9Brain.nn.propagate [(0 : ℝ)]).length = 2 ∧
      ((c9Brain.nn.propagate [(0 : ℝ)])[0]?).isSome ∧
      ((c9Brain.nn.propagate [(0 : ℝ)])[1]?).isSome ∧
      ∀ (position : ℝ × ℝ) (rotation : ℝ) (foods : List Food),
        (c9Eye.processVision position rotation foods).length = c9Eye.cells) := by
  have hb : c9Brain.nn.matchesShape (Brain.topology c9Eye) := by
    simp [c9Brain, c9Eye, Network.matchesShape, Brain.topology, Layer.matchesShape]
  have hv : [(0 : ℝ)].length = c9Eye.cells := by simp [c9Eye]
  exact ⟨⟨hb, hv⟩, C10_topologySafe c9Eye c9Brain [(0 : ℝ)] hb hv⟩

end Shorelark
